import Mathlib

/-!
Verification of `config/webpack.config.dev.js`.

A shallow embedding of the development build descriptor exported by
`config/webpack.config.dev.js`, together with the parts of the host it
relies on: regular-expression conditions (`RegExp.prototype.test`), the rule
conditions `test` / `exclude`, POSIX `path.join`, and module resolution
(`require`, `require.resolve`).  These parts belong to the JavaScript
runtime and to the bundler that reads the descriptor, not to the file; they
are written here after their documented behaviour, `path` in its POSIX form.

Strings are sequences of characters.  Every pattern of the file consists of
ASCII literals only, so matching over code points agrees with matching over
UTF-16 code units.
-/

namespace WebpackDev

/-! ## Regular expressions -/

/-- The fragment of JavaScript regular expressions used by the rule
conditions: literal characters, concatenation, alternation `a|b`, the
optional quantifier `a?`, capturing groups `(a)` and the end assertion `$`
(no flag is set, so `$` only holds at the end of the input). -/
inductive Regex where
  | char (c : Char)
  | seq (a b : Regex)
  | alt (a b : Regex)
  | opt (a : Regex)
  | group (a : Regex)
  | eoi
  | empty
  deriving Repr, DecidableEq

namespace Regex

/-- A run of literal characters, such as `node_modules` or `\.js`. -/
def lit : List Char → Regex
  | [] => empty
  | c :: cs => seq (char c) (lit cs)

/-- All ways of matching `r` at the start of `s`: each result is the input
that remains after one match (backtracking order, greedy `?`). -/
def matchFrom : Regex → List Char → List (List Char)
  | char c, s =>
    match s with
    | [] => []
    | x :: xs => if x = c then [xs] else []
  | seq a b, s => (matchFrom a s).flatMap (matchFrom b)
  | alt a b, s => matchFrom a s ++ matchFrom b s
  | opt a, s => matchFrom a s ++ [s]
  | group a, s => matchFrom a s
  | eoi, s => if s = [] then [[]] else []
  | empty, s => [s]

/-- Whether `r` matches at the start of `s`. -/
def matchesAt (r : Regex) (s : List Char) : Bool :=
  !(matchFrom r s).isEmpty

/-- The search of `RegExp.prototype.test`: try every start position from
left to right (the final one is the empty remainder). -/
def search (r : Regex) : List Char → Bool
  | [] => matchesAt r []
  | c :: cs => matchesAt r (c :: cs) || search r cs

/-- The method `regex.test(str)`. -/
def test (r : Regex) (str : String) : Bool :=
  search r str.data

end Regex

/-! ## The patterns of the file -/

/-- The pattern `/\.js$/`. -/
def reJs : Regex := Regex.seq (Regex.lit ".js".data) Regex.eoi

/-- The pattern `/(node_modules)/`. -/
def reNodeModulesGroup : Regex := Regex.group (Regex.lit "node_modules".data)

/-- The pattern `/\.css$/`. -/
def reCss : Regex := Regex.seq (Regex.lit ".css".data) Regex.eoi

/-- The pattern `/\.elm$/`. -/
def reElm : Regex := Regex.seq (Regex.lit ".elm".data) Regex.eoi

/-- The pattern `/elm-stuff/`. -/
def reElmStuff : Regex := Regex.lit "elm-stuff".data

/-- The pattern `/node_modules/`. -/
def reNodeModules : Regex := Regex.lit "node_modules".data

/-- The pattern `/\.(jpe?g|png|gif)$/`. -/
def reImage : Regex :=
  Regex.seq (Regex.char '.')
    (Regex.seq
      (Regex.group
        (Regex.alt
          (Regex.seq (Regex.lit "jp".data) (Regex.seq (Regex.opt (Regex.char 'e')) (Regex.char 'g')))
          (Regex.alt (Regex.lit "png".data) (Regex.lit "gif".data))))
      Regex.eoi)

/-- The pattern `/\.html$/`. -/
def reHtml : Regex := Regex.seq (Regex.lit ".html".data) Regex.eoi

/-- The pattern `/\.json$/`. -/
def reJson : Regex := Regex.seq (Regex.lit ".json".data) Regex.eoi

/-! ## Names -/

/-- The name `name` ends in `ending`. -/
def EndsWith (ending name : String) : Prop :=
  ending.data <:+ name.data

/-- The name `name` contains `part` as a substring. -/
def Contains (part name : String) : Prop :=
  part.data <:+: name.data

instance (ending name : String) : Decidable (EndsWith ending name) := by
  unfold EndsWith; infer_instance

instance (part name : String) : Decidable (Contains part name) := by
  unfold Contains; infer_instance

/-! ## Rule conditions and loaders -/

/-- Constant values that occur as option values in the file. -/
inductive JsValue where
  | bool (b : Bool)
  | str (s : String)
  deriving Repr, DecidableEq

/-- An entry of a `use` array: a loader with its options (a bare string
such as `"style-loader"` has no options). -/
structure UseEntry where
  loader : String
  options : List (String × JsValue)
  deriving Repr, DecidableEq

/-- A member of `module.rules`.  `test` is absent in the last rule;
`exclude` is a single pattern or an array of patterns, kept here as the list
of its patterns; a rule names its loader either by `loader` (with `options`)
or by a `use` array. -/
structure Rule where
  test : Option Regex
  exclude : List Regex
  loader : Option String
  options : List (String × JsValue)
  use : List UseEntry
  deriving Repr, DecidableEq

namespace Rule

/-- The condition of a rule as the bundler evaluates it: a rule accepts a
resource when its `test` pattern (if any) matches and none of its `exclude`
patterns matches. -/
def accepts (r : Rule) (resource : String) : Bool :=
  (match r.test with
    | none => true
    | some t => t.test resource) &&
  !(r.exclude.any fun e => e.test resource)

/-- The loaders of a rule in declaration order: `loader` with `options` is
the one-element chain, otherwise the `use` array. -/
def handlerChain (r : Rule) : List UseEntry :=
  match r.loader with
  | some l => [{ loader := l, options := r.options }]
  | none => r.use

/-- The order in which the loaders of a chain run: from the last declared
to the first. -/
def applicationOrder (r : Rule) : List UseEntry :=
  r.handlerChain.reverse

end Rule

/-- The rule `rules[0]`: `.js` files outside `node_modules`, `babel-loader`. -/
def jsRule : Rule :=
  { test := some reJs
    exclude := [reNodeModulesGroup]
    loader := some "babel-loader"
    options := [("compact", JsValue.bool true)]
    use := [] }

/-- The rule `rules[1]`: `.css` files, `style-loader` and `css-loader`. -/
def cssRule : Rule :=
  { test := some reCss
    exclude := []
    loader := none
    options := []
    use :=
      [ { loader := "style-loader", options := [] },
        { loader := "css-loader", options := [("sourceMap", JsValue.bool true)] } ] }

/-- The rule `rules[2]`: `.elm` files outside `elm-stuff` and `node_modules`. -/
def elmRule : Rule :=
  { test := some reElm
    exclude := [reElmStuff, reNodeModules]
    loader := some "elm-webpack-loader?verbose=true"
    options := []
    use := [] }

/-- The rule `rules[3]`: images, `file-loader` with a naming template. -/
def imageRule : Rule :=
  { test := some reImage
    exclude := []
    loader := some "file-loader"
    options := [("name", JsValue.str "[path][name].[ext]")]
    use := [] }

/-- The rule `rules[4]`: no `test`, everything except `.css`, `.js`, `.html`
and `.json`; `fileLoader` is the value of `require.resolve("file-loader")`. -/
def catchAllRule (fileLoader : String) : Rule :=
  { test := none
    exclude := [reCss, reJs, reHtml, reJson]
    loader := some fileLoader
    options := []
    use := [] }

/-- The array `module.rules`. -/
def rules (fileLoader : String) : List Rule :=
  [jsRule, cssRule, elmRule, imageRule, catchAllRule fileLoader]

/-- How many rules of `module.rules` accept a resource. -/
def acceptCount (fileLoader : String) (resource : String) : Nat :=
  ((rules fileLoader).filter fun r => r.accepts resource).length

/-! ## POSIX `path` -/

namespace path

/-- Cut a path at every occurrence of `sep`: the segments that
`normalizeString` sees between separators. -/
def splitOn (sep : Char) : List Char → List (List Char)
  | [] => [[]]
  | c :: cs =>
    if c = sep then [] :: splitOn sep cs
    else
      match splitOn sep cs with
      | [] => [[c]]
      | seg :: rest => (c :: seg) :: rest

/-- What `normalizeString` does when it reaches the separator that closes
the segment `seg`; `res` is its result so far as a list of segments, the most
recent first.  Empty segments and `.` are dropped, `..` removes the last
segment unless there is none or it is `..` itself (then `..` is appended when
`allowAboveRoot`), every other segment is appended. -/
def pushSegment (allowAboveRoot : Bool) (res : List (List Char)) (seg : List Char) :
    List (List Char) :=
  if seg = [] ∨ seg = ['.'] then res
  else if seg = ['.', '.'] then
    match res with
    | [] => if allowAboveRoot then [seg] else []
    | top :: rest =>
      if top = ['.', '.'] then (if allowAboveRoot then seg :: res else res)
      else rest
  else seg :: res

/-- The segments that `normalizeString` keeps, in order. -/
def normalizeSegments (p : List Char) (allowAboveRoot : Bool) : List (List Char) :=
  ((splitOn '/' p).foldl (pushSegment allowAboveRoot) []).reverse

/-- The helper `normalizeString(path, allowAboveRoot, "/", isPosixPathSeparator)`. -/
def normalizeString (p : List Char) (allowAboveRoot : Bool) : List Char :=
  List.intercalate ['/'] (normalizeSegments p allowAboveRoot)

/-- The function `posix.normalize` on characters. -/
def normalizeChars (p : List Char) : List Char :=
  if p = [] then ['.']
  else
    let isAbs := p.head? = some '/'
    let trailingSeparator := p.getLast? = some '/'
    let res := normalizeString p (!decide isAbs)
    if res = [] then
      if isAbs then ['/'] else if trailingSeparator then ['.', '/'] else ['.']
    else
      let res := if trailingSeparator then res ++ ['/'] else res
      if isAbs then '/' :: res else res

/-- The function `posix.join` on characters: the non-empty arguments
joined by `/`, then normalized. -/
def joinChars (args : List (List Char)) : List Char :=
  match args.filter fun a => a ≠ [] with
  | [] => ['.']
  | parts => normalizeChars (List.intercalate ['/'] parts)

/-- The function `path.normalize`. -/
def normalize (p : String) : String :=
  ⟨normalizeChars p.data⟩

/-- The function `path.join` of the runtime, POSIX form. -/
def join (args : List String) : String :=
  ⟨joinChars (args.map String.data)⟩

/-- The function `path.isAbsolute`. -/
def isAbsolute (p : String) : Bool :=
  p.data.head? = some '/'

/-- The absolute path whose components are `segs`, `/` for none. -/
def ofSegments (segs : List String) : String :=
  ⟨'/' :: List.intercalate ['/'] (segs.map String.data)⟩

/-- A directory or file name as characters: not empty, not `.` or `..`,
without `/`. -/
def IsNameChars (s : List Char) : Prop :=
  s ≠ [] ∧ s ≠ ['.'] ∧ s ≠ ['.', '.'] ∧ '/' ∉ s

/-- A directory or file name: not empty, not `.` or `..`, without `/`. -/
def IsName (s : String) : Prop :=
  IsNameChars s.data

instance (s : List Char) : Decidable (IsNameChars s) := by
  unfold IsNameChars; infer_instance

instance (s : String) : Decidable (IsName s) := by
  unfold IsName; infer_instance

end path

/-! ## The descriptor -/

/-- The record `output`. -/
structure Output where
  pathinfo : Bool
  publicPath : String
  filename : String
  deriving Repr, DecidableEq

/-- A member of `plugins`, with the argument of its constructor. -/
inductive Plugin where
  | definePlugin (definitions : List (String × JsValue))
  | hotModuleReplacementPlugin
  | htmlWebpackPlugin (options : List (String × JsValue))
  deriving Repr, DecidableEq

/-- The record `module`. -/
structure Module where
  rules : List Rule
  deriving Repr, DecidableEq

/-- The record `devServer`. -/
structure DevServer where
  hot : Bool
  noInfo : Bool
  open_ : Bool
  overlay : Bool
  deriving Repr, DecidableEq

/-- The exported object. -/
structure Config where
  devtool : String
  mode : String
  entry : List String
  output : Output
  plugins : List Plugin
  module : Module
  devServer : DevServer
  deriving Repr, DecidableEq

/-- What evaluating the file can depend on: the clock, the random source and
the module resolution of the installation (`none` when a request cannot be
resolved). -/
structure Host where
  clock : Nat
  randomSeed : Nat
  resolve : String → Option String

/-- A failed evaluation of the file. -/
inductive LoadError where
  | moduleNotFound (request : String)
  deriving Repr, DecidableEq

/-- The call `require.resolve(request)`; `require(request)` fails in the
same cases. -/
def requireResolve (h : Host) (request : String) : Except LoadError String :=
  match h.resolve request with
  | some file => Except.ok file
  | none => Except.error (LoadError.moduleNotFound request)

/-- The object literal assigned to `module.exports`, given `__dirname` and
the value of `require.resolve("file-loader")`. -/
def descriptor (__dirname : String) (fileLoader : String) : Config :=
  { devtool := "inline-source-maps"
    mode := "development"
    entry :=
      [ path.join [__dirname, "../templates/js/script.dev.js"],
        path.join [__dirname, "../app/script.js"] ]
    output := { pathinfo := true, publicPath := "/", filename := "[name].js" }
    plugins :=
      [ Plugin.definePlugin [("development", JsValue.bool true)],
        Plugin.hotModuleReplacementPlugin,
        Plugin.htmlWebpackPlugin
          [("template", JsValue.str (path.join [__dirname, "../templates/html/index.dev.html"]))] ]
    module := { rules := rules fileLoader }
    devServer := { hot := true, noInfo := true, open_ := true, overlay := true } }

/-- Evaluation of the file: the two third-party modules are required, then
the object literal is built, which calls `require.resolve("file-loader")`. -/
def moduleExports (h : Host) (__dirname : String) : Except LoadError Config := do
  let _ ← requireResolve h "webpack"
  let _ ← requireResolve h "html-webpack-plugin"
  let fileLoader ← requireResolve h "file-loader"
  pure (descriptor __dirname fileLoader)

/-- The constants injected by the `DefinePlugin` members of a plugin list. -/
def globalDefines : List Plugin → List (String × JsValue)
  | [] => []
  | Plugin.definePlugin ds :: ps => ds ++ globalDefines ps
  | _ :: ps => globalDefines ps

/-- The `template` options of the `HtmlWebpackPlugin` members of a plugin list. -/
def htmlTemplates : List Plugin → List String
  | [] => []
  | Plugin.htmlWebpackPlugin opts :: ps =>
    (opts.filterMap fun o =>
      match o with
      | ("template", JsValue.str t) => some t
      | _ => none) ++ htmlTemplates ps
  | _ :: ps => htmlTemplates ps

/-- Every path the descriptor computes from `__dirname`. -/
def computedPaths (c : Config) : List String :=
  c.entry ++ htmlTemplates c.plugins

/-- An installation in which the three modules the file asks for resolve. -/
def Host.Installed (h : Host) : Prop :=
  (h.resolve "webpack").isSome ∧ (h.resolve "html-webpack-plugin").isSome ∧
    (h.resolve "file-loader").isSome

instance (h : Host) : Decidable h.Installed := by
  unfold Host.Installed; infer_instance

/-- A sample installation under `/repo`. -/
def sampleHost : Host :=
  { clock := 0
    randomSeed := 0
    resolve := fun request =>
      if request = "webpack" then some "/repo/node_modules/webpack/lib/webpack.js"
      else if request = "html-webpack-plugin" then some "/repo/node_modules/html-webpack-plugin/index.js"
      else if request = "file-loader" then some "/repo/node_modules/file-loader/dist/cjs.js"
      else none }

/-- The installation of `sampleHost` with an earlier release of
`file-loader`, whose main file is `index.js`; clock and random state are
those of `sampleHost`. -/
def olderLoaderHost : Host :=
  { clock := 0
    randomSeed := 0
    resolve := fun request =>
      if request = "webpack" then some "/repo/node_modules/webpack/lib/webpack.js"
      else if request = "html-webpack-plugin" then some "/repo/node_modules/html-webpack-plugin/index.js"
      else if request = "file-loader" then some "/repo/node_modules/file-loader/index.js"
      else none }

/-- The `loader` of the last rule of a returned descriptor. -/
def lastLoader (r : Except LoadError Config) : Option String :=
  match r with
  | Except.ok c => c.module.rules.getLast?.bind fun rule => rule.loader
  | Except.error _ => none

/-- The installation of `sampleHost` at another time, with another random
state. -/
def laterHost : Host :=
  { clock := 1762387200000
    randomSeed := 48271
    resolve := sampleHost.resolve }

namespace Regex

theorem mem_matchFrom_lit (l s t : List Char) :
    t ∈ matchFrom (lit l) s ↔ s = l ++ t := by
  induction l generalizing s with
  | nil => simp [lit, matchFrom, eq_comm]
  | cons c cs ih =>
    cases s with
    | nil => simp [lit, matchFrom]
    | cons x xs =>
      by_cases hx : x = c
      · simp [lit, matchFrom, hx, ih]
      · simp [lit, matchFrom, hx]

theorem search_iff (r : Regex) (s : List Char) :
    search r s = true ↔ ∃ t, t <:+ s ∧ ∃ u, u ∈ matchFrom r t := by
  induction s with
  | nil =>
    simp only [search, matchesAt, List.suffix_nil]
    constructor
    · intro h
      refine ⟨[], rfl, ?_⟩
      simpa [List.isEmpty_iff, List.eq_nil_iff_forall_not_mem] using h
    · rintro ⟨t, rfl, hu⟩
      simpa [List.isEmpty_iff, List.eq_nil_iff_forall_not_mem] using hu
  | cons c cs ih =>
    simp only [search, Bool.or_eq_true, ih, List.suffix_cons_iff]
    constructor
    · rintro (h | ⟨t, ht, hu⟩)
      · refine ⟨c :: cs, Or.inl rfl, ?_⟩
        simpa [matchesAt, List.isEmpty_iff, List.eq_nil_iff_forall_not_mem] using h
      · exact ⟨t, Or.inr ht, hu⟩
    · rintro ⟨t, (rfl | ht), hu⟩
      · left
        simpa [matchesAt, List.isEmpty_iff, List.eq_nil_iff_forall_not_mem] using hu
      · exact Or.inr ⟨t, ht, hu⟩

/-- A literal followed by `$` tests for a suffix. -/
theorem search_lit_eoi (l s : List Char) :
    search (seq (lit l) eoi) s = true ↔ l <:+ s := by
  rw [search_iff]
  constructor
  · rintro ⟨t, ht, u, hu⟩
    simp only [matchFrom, List.mem_flatMap, mem_matchFrom_lit] at hu
    obtain ⟨v, rfl, hv⟩ := hu
    by_cases hv0 : v = []
    · subst hv0; simpa using ht
    · simp [hv0] at hv
  · intro h
    refine ⟨l, h, [], ?_⟩
    simp only [matchFrom, List.mem_flatMap, mem_matchFrom_lit]
    exact ⟨[], by simp, by simp⟩

/-- A bare literal tests for a substring. -/
theorem search_lit (l s : List Char) :
    search (lit l) s = true ↔ l <:+: s := by
  rw [search_iff]
  constructor
  · rintro ⟨t, ⟨p, rfl⟩, u, hu⟩
    rw [mem_matchFrom_lit] at hu
    subst hu
    exact ⟨p, u, by simp⟩
  · rintro ⟨p, u, rfl⟩
    exact ⟨l ++ u, ⟨p, by simp⟩, u, (mem_matchFrom_lit _ _ _).2 rfl⟩

theorem search_group (r : Regex) (s : List Char) :
    search (group r) s = search r s := by
  induction s with
  | nil => simp [search, matchesAt, matchFrom]
  | cons c cs ih => simp [search, matchesAt, matchFrom, ih]

theorem mem_matchFrom_char (c : Char) (s t : List Char) :
    t ∈ matchFrom (char c) s ↔ s = c :: t := by
  cases s with
  | nil => simp [matchFrom]
  | cons x xs =>
    by_cases hx : x = c
    · simp [matchFrom, hx, eq_comm]
    · simp [matchFrom, hx]

theorem mem_matchFrom_eoi (s t : List Char) :
    t ∈ matchFrom eoi s ↔ s = [] ∧ t = [] := by
  by_cases hs : s = []
  · simp [matchFrom, hs]
  · simp [matchFrom, hs]

theorem mem_matchFrom_seq (a b : Regex) (s t : List Char) :
    t ∈ matchFrom (seq a b) s ↔ ∃ u, u ∈ matchFrom a s ∧ t ∈ matchFrom b u := by
  simp [matchFrom, List.mem_flatMap]

theorem mem_matchFrom_alt (a b : Regex) (s t : List Char) :
    t ∈ matchFrom (alt a b) s ↔ t ∈ matchFrom a s ∨ t ∈ matchFrom b s := by
  simp [matchFrom]

theorem mem_matchFrom_opt (a : Regex) (s t : List Char) :
    t ∈ matchFrom (opt a) s ↔ t ∈ matchFrom a s ∨ t = s := by
  simp [matchFrom]

theorem mem_matchFrom_group (a : Regex) (s t : List Char) :
    t ∈ matchFrom (group a) s ↔ t ∈ matchFrom a s := by
  simp [matchFrom]

end Regex

/-! ## What each pattern tests -/

theorem reJs_samples :
    reJs.test "app/script.js" = true ∧ reJs.test "app/script.jsx" = false ∧
      reJs.test "app/SCRIPT.JS" = false := by decide

theorem reImage_samples :
    reImage.test "logo.jpeg" = true ∧ reImage.test "logo.jpg" = true ∧
      reImage.test "logo.jpeeg" = false ∧ reImage.test "logo.png.txt" = false := by decide

theorem reNodeModules_samples :
    reNodeModules.test "/repo/node_modules/x/index.js" = true ∧
      reNodeModules.test "/repo/app/script.js" = false := by decide

theorem test_reJs (n : String) : reJs.test n = true ↔ EndsWith ".js" n :=
  Regex.search_lit_eoi _ _

theorem test_reCss (n : String) : reCss.test n = true ↔ EndsWith ".css" n :=
  Regex.search_lit_eoi _ _

theorem test_reElm (n : String) : reElm.test n = true ↔ EndsWith ".elm" n :=
  Regex.search_lit_eoi _ _

theorem test_reHtml (n : String) : reHtml.test n = true ↔ EndsWith ".html" n :=
  Regex.search_lit_eoi _ _

theorem test_reJson (n : String) : reJson.test n = true ↔ EndsWith ".json" n :=
  Regex.search_lit_eoi _ _

theorem test_reNodeModules (n : String) :
    reNodeModules.test n = true ↔ Contains "node_modules" n :=
  Regex.search_lit _ _

theorem test_reNodeModulesGroup (n : String) :
    reNodeModulesGroup.test n = true ↔ Contains "node_modules" n := by
  unfold reNodeModulesGroup Regex.test
  rw [Regex.search_group]
  exact Regex.search_lit _ _

theorem test_reElmStuff (n : String) :
    reElmStuff.test n = true ↔ Contains "elm-stuff" n :=
  Regex.search_lit _ _

theorem test_reImage (n : String) :
    reImage.test n = true ↔
      EndsWith ".jpg" n ∨ EndsWith ".jpeg" n ∨ EndsWith ".png" n ∨ EndsWith ".gif" n := by
  unfold Regex.test EndsWith
  rw [Regex.search_iff]
  have key : ∀ t : List Char, (∃ u, u ∈ Regex.matchFrom reImage t) ↔
      t = ".jpg".data ∨ t = ".jpeg".data ∨ t = ".png".data ∨ t = ".gif".data := by
    intro t
    constructor
    · rintro ⟨u, hu⟩
      simp only [reImage, Regex.mem_matchFrom_seq, Regex.mem_matchFrom_alt,
        Regex.mem_matchFrom_opt, Regex.mem_matchFrom_group, Regex.mem_matchFrom_char,
        Regex.mem_matchFrom_eoi, Regex.mem_matchFrom_lit] at hu
      obtain ⟨v, rfl, w, hw, rfl, rfl⟩ := hu
      rcases hw with ⟨a, rfl, b, (rfl | rfl), rfl⟩ | rfl | rfl
      · right; left; rfl
      · left; rfl
      · right; right; left; rfl
      · right; right; right; rfl
    · rintro (rfl | rfl | rfl | rfl) <;> exact ⟨[], by decide⟩
  constructor
  · rintro ⟨t, ht, hu⟩
    rcases (key t).1 hu with rfl | rfl | rfl | rfl
    · exact Or.inl ht
    · exact Or.inr (Or.inl ht)
    · exact Or.inr (Or.inr (Or.inl ht))
    · exact Or.inr (Or.inr (Or.inr ht))
  · rintro (h | h | h | h)
    · exact ⟨_, h, (key _).2 (Or.inl rfl)⟩
    · exact ⟨_, h, (key _).2 (Or.inr (Or.inl rfl))⟩
    · exact ⟨_, h, (key _).2 (Or.inr (Or.inr (Or.inl rfl)))⟩
    · exact ⟨_, h, (key _).2 (Or.inr (Or.inr (Or.inr rfl)))⟩

/-! ## What each rule accepts -/

theorem jsRule_accepts (n : String) :
    jsRule.accepts n = true ↔ EndsWith ".js" n ∧ ¬ Contains "node_modules" n := by
  simp [Rule.accepts, jsRule, test_reJs, ← test_reNodeModulesGroup]

theorem cssRule_accepts (n : String) :
    cssRule.accepts n = true ↔ EndsWith ".css" n := by
  simp [Rule.accepts, cssRule, test_reCss]

theorem elmRule_accepts (n : String) :
    elmRule.accepts n = true ↔
      EndsWith ".elm" n ∧ ¬ Contains "elm-stuff" n ∧ ¬ Contains "node_modules" n := by
  simp [Rule.accepts, elmRule, test_reElm, ← test_reElmStuff, ← test_reNodeModules]

theorem imageRule_accepts (n : String) :
    imageRule.accepts n = true ↔
      EndsWith ".jpg" n ∨ EndsWith ".jpeg" n ∨ EndsWith ".png" n ∨ EndsWith ".gif" n := by
  simp [Rule.accepts, imageRule, test_reImage]

theorem catchAllRule_accepts (fileLoader n : String) :
    (catchAllRule fileLoader).accepts n = true ↔
      ¬ EndsWith ".css" n ∧ ¬ EndsWith ".js" n ∧ ¬ EndsWith ".html" n ∧
        ¬ EndsWith ".json" n := by
  simp [Rule.accepts, catchAllRule, ← test_reCss, ← test_reJs, ← test_reHtml, ← test_reJson]

/-- Two endings of which neither ends in the other cannot both end a name. -/
theorem endsWith_exclusive {a b : String} (n : String)
    (hab : ¬ EndsWith a b) (hba : ¬ EndsWith b a) (ha : EndsWith a n) :
    ¬ EndsWith b n := by
  intro hb
  rcases List.suffix_or_suffix_of_suffix ha hb with h | h
  · exact hab h
  · exact hba h

theorem acceptCount_pos_iff (fileLoader p : String) :
    0 < acceptCount fileLoader p ↔ ∃ r ∈ rules fileLoader, r.accepts p = true := by
  simp [acceptCount, List.length_pos_iff_exists_mem]

/-- A path with an ending other than the ones the four specific rules test
is rejected by all four. -/
theorem specific_rules_reject_html (p : String) (h : EndsWith ".html" p) :
    jsRule.accepts p = false ∧ cssRule.accepts p = false ∧ elmRule.accepts p = false ∧
      imageRule.accepts p = false := by
  have x0 : ¬ EndsWith ".js" p := endsWith_exclusive p (by decide) (by decide) h
  have x1 : ¬ EndsWith ".css" p := endsWith_exclusive p (by decide) (by decide) h
  have x2 : ¬ EndsWith ".elm" p := endsWith_exclusive p (by decide) (by decide) h
  have x3 : ¬ EndsWith ".jpg" p := endsWith_exclusive p (by decide) (by decide) h
  have x4 : ¬ EndsWith ".jpeg" p := endsWith_exclusive p (by decide) (by decide) h
  have x5 : ¬ EndsWith ".png" p := endsWith_exclusive p (by decide) (by decide) h
  have x6 : ¬ EndsWith ".gif" p := endsWith_exclusive p (by decide) (by decide) h
  simp only [← Bool.not_eq_true, jsRule_accepts, cssRule_accepts, elmRule_accepts,
    imageRule_accepts]
  simp [x0, x1, x2, x3, x4, x5, x6]

theorem specific_rules_reject_json (p : String) (h : EndsWith ".json" p) :
    jsRule.accepts p = false ∧ cssRule.accepts p = false ∧ elmRule.accepts p = false ∧
      imageRule.accepts p = false := by
  have x0 : ¬ EndsWith ".js" p := endsWith_exclusive p (by decide) (by decide) h
  have x1 : ¬ EndsWith ".css" p := endsWith_exclusive p (by decide) (by decide) h
  have x2 : ¬ EndsWith ".elm" p := endsWith_exclusive p (by decide) (by decide) h
  have x3 : ¬ EndsWith ".jpg" p := endsWith_exclusive p (by decide) (by decide) h
  have x4 : ¬ EndsWith ".jpeg" p := endsWith_exclusive p (by decide) (by decide) h
  have x5 : ¬ EndsWith ".png" p := endsWith_exclusive p (by decide) (by decide) h
  have x6 : ¬ EndsWith ".gif" p := endsWith_exclusive p (by decide) (by decide) h
  simp only [← Bool.not_eq_true, jsRule_accepts, cssRule_accepts, elmRule_accepts,
    imageRule_accepts]
  simp [x0, x1, x2, x3, x4, x5, x6]

theorem other_rules_reject_js (p : String) (h : EndsWith ".js" p) :
    cssRule.accepts p = false ∧ elmRule.accepts p = false ∧ imageRule.accepts p = false := by
  have x0 : ¬ EndsWith ".css" p := endsWith_exclusive p (by decide) (by decide) h
  have x1 : ¬ EndsWith ".elm" p := endsWith_exclusive p (by decide) (by decide) h
  have x2 : ¬ EndsWith ".jpg" p := endsWith_exclusive p (by decide) (by decide) h
  have x3 : ¬ EndsWith ".jpeg" p := endsWith_exclusive p (by decide) (by decide) h
  have x4 : ¬ EndsWith ".png" p := endsWith_exclusive p (by decide) (by decide) h
  have x5 : ¬ EndsWith ".gif" p := endsWith_exclusive p (by decide) (by decide) h
  simp only [← Bool.not_eq_true, cssRule_accepts, elmRule_accepts, imageRule_accepts]
  simp [x0, x1, x2, x3, x4, x5]

theorem other_rules_reject_css (p : String) (h : EndsWith ".css" p) :
    jsRule.accepts p = false ∧ elmRule.accepts p = false ∧ imageRule.accepts p = false := by
  have x0 : ¬ EndsWith ".js" p := endsWith_exclusive p (by decide) (by decide) h
  have x1 : ¬ EndsWith ".elm" p := endsWith_exclusive p (by decide) (by decide) h
  have x2 : ¬ EndsWith ".jpg" p := endsWith_exclusive p (by decide) (by decide) h
  have x3 : ¬ EndsWith ".jpeg" p := endsWith_exclusive p (by decide) (by decide) h
  have x4 : ¬ EndsWith ".png" p := endsWith_exclusive p (by decide) (by decide) h
  have x5 : ¬ EndsWith ".gif" p := endsWith_exclusive p (by decide) (by decide) h
  simp only [← Bool.not_eq_true, jsRule_accepts, elmRule_accepts, imageRule_accepts]
  simp [x0, x1, x2, x3, x4, x5]

theorem imageRule_rejects_elm (p : String) (h : EndsWith ".elm" p) :
    imageRule.accepts p = false := by
  have x0 : ¬ EndsWith ".jpg" p := endsWith_exclusive p (by decide) (by decide) h
  have x1 : ¬ EndsWith ".jpeg" p := endsWith_exclusive p (by decide) (by decide) h
  have x2 : ¬ EndsWith ".png" p := endsWith_exclusive p (by decide) (by decide) h
  have x3 : ¬ EndsWith ".gif" p := endsWith_exclusive p (by decide) (by decide) h
  simp only [← Bool.not_eq_true, imageRule_accepts]
  simp [x0, x1, x2, x3]

/-- The catch-all rule rejects what one of its four `exclude` patterns matches. -/
theorem catchAllRule_rejects (fileLoader p : String)
    (h : EndsWith ".css" p ∨ EndsWith ".js" p ∨ EndsWith ".html" p ∨ EndsWith ".json" p) :
    (catchAllRule fileLoader).accepts p = false := by
  rw [← Bool.not_eq_true, catchAllRule_accepts]
  tauto

theorem all_rules_reject_iff (fileLoader p : String) :
    (∀ r ∈ rules fileLoader, r.accepts p = false) ↔
      (EndsWith ".html" p ∨ EndsWith ".json" p ∨
        (EndsWith ".js" p ∧ Contains "node_modules" p)) := by
  simp only [rules, List.forall_mem_cons, List.not_mem_nil, false_imp_iff, imp_true_iff,
    and_true]
  constructor
  · rintro ⟨hjs, hcss, -, -, hall⟩
    rw [← Bool.not_eq_true, catchAllRule_accepts] at hall
    rw [← Bool.not_eq_true, jsRule_accepts] at hjs
    rw [← Bool.not_eq_true, cssRule_accepts] at hcss
    by_cases h1 : EndsWith ".html" p
    · exact Or.inl h1
    by_cases h2 : EndsWith ".json" p
    · exact Or.inr (Or.inl h2)
    by_cases h3 : EndsWith ".js" p
    · exact Or.inr (Or.inr ⟨h3, by_contra fun hn => hjs ⟨h3, hn⟩⟩)
    · exact absurd ⟨hcss, h3, h1, h2⟩ hall
  · rintro (h | h | ⟨h, hn⟩)
    · obtain ⟨a, b, c, d⟩ := specific_rules_reject_html p h
      exact ⟨a, b, c, d, catchAllRule_rejects _ _ (Or.inr (Or.inr (Or.inl h)))⟩
    · obtain ⟨a, b, c, d⟩ := specific_rules_reject_json p h
      exact ⟨a, b, c, d, catchAllRule_rejects _ _ (Or.inr (Or.inr (Or.inr h)))⟩
    · obtain ⟨b, c, d⟩ := other_rules_reject_js p h
      refine ⟨?_, b, c, d, catchAllRule_rejects _ _ (Or.inr (Or.inl h))⟩
      rw [← Bool.not_eq_true, jsRule_accepts]
      exact fun hh => hh.2 hn

theorem some_rule_accepts_iff (fileLoader p : String) :
    (∃ r ∈ rules fileLoader, r.accepts p = true) ↔
      ¬ (EndsWith ".html" p ∨ EndsWith ".json" p ∨
        (EndsWith ".js" p ∧ Contains "node_modules" p)) := by
  rw [← all_rules_reject_iff fileLoader p]
  simp

/-! ## Facts about `path.join` -/

namespace path

theorem join_samples :
    join ["/repo/config", "../app/script.js"] = "/repo/app/script.js" ∧
    join ["config", "../app/script.js"] = "app/script.js" ∧
    join ["", "../app/script.js"] = "../app/script.js" ∧
    join ["/", "../app/script.js"] = "/app/script.js" ∧
    join ["a/b/", "../../../x/"] = "../x/" ∧
    normalize "/a//b/./c/.." = "/a/b" ∧
    ofSegments ["repo", "config"] = "/repo/config" := by decide

theorem intercalate_cons_cons (sep x y : List Char) (l : List (List Char)) :
    List.intercalate sep (x :: y :: l) = x ++ sep ++ List.intercalate sep (y :: l) := by
  simp [List.intercalate, List.intersperse]

theorem intercalate_single (sep x : List Char) : List.intercalate sep [x] = x := by
  simp [List.intercalate, List.intersperse]

theorem splitOn_ne_nil (sep : Char) (s : List Char) : splitOn sep s ≠ [] := by
  induction s with
  | nil => simp [splitOn]
  | cons c cs ih =>
    unfold splitOn
    split
    · simp
    · split
      · simp
      · simp

theorem splitOn_append_sep (sep : Char) (a b : List Char) :
    splitOn sep (a ++ sep :: b) = splitOn sep a ++ splitOn sep b := by
  induction a with
  | nil => simp [splitOn]
  | cons c cs ih =>
    by_cases hc : c = sep
    · simp [splitOn, hc, ih]
    · have hne := splitOn_ne_nil sep cs
      cases hsp : splitOn sep cs with
      | nil => exact absurd hsp hne
      | cons seg rest => simp [splitOn, hc, ih, hsp]

theorem splitOn_of_not_mem (sep : Char) (a : List Char) (h : sep ∉ a) :
    splitOn sep a = [a] := by
  induction a with
  | nil => simp [splitOn]
  | cons c cs ih =>
    have hc : c ≠ sep := fun e => h (by simp [e])
    have hcs : sep ∉ cs := fun e => h (by simp [e])
    simp [splitOn, hc, ih hcs]

theorem splitOn_intercalate (sep : Char) (l : List (List Char)) (hl : l ≠ [])
    (h : ∀ s ∈ l, sep ∉ s) : splitOn sep (List.intercalate [sep] l) = l := by
  induction l with
  | nil => exact absurd rfl hl
  | cons x xs ih =>
    cases xs with
    | nil =>
      rw [intercalate_single]
      exact splitOn_of_not_mem sep x (h x (by simp))
    | cons y ys =>
      rw [intercalate_cons_cons]
      have e : x ++ [sep] ++ List.intercalate [sep] (y :: ys) =
          x ++ sep :: List.intercalate [sep] (y :: ys) := by simp
      rw [e, splitOn_append_sep, splitOn_of_not_mem sep x (h x (by simp)),
        ih (by simp) (fun s hs => h s (List.mem_cons_of_mem _ hs))]
      rfl

theorem not_mem_of_mem_splitOn (sep : Char) (s seg : List Char)
    (h : seg ∈ splitOn sep s) : sep ∉ seg := by
  induction s generalizing seg with
  | nil =>
    simp [splitOn] at h
    simp [h]
  | cons c cs ih =>
    by_cases hc : c = sep
    · simp only [splitOn, hc, if_true, List.mem_cons] at h
      rcases h with rfl | h
      · simp
      · exact ih seg h
    · have hne := splitOn_ne_nil sep cs
      cases hsp : splitOn sep cs with
      | nil => exact absurd hsp hne
      | cons seg0 rest =>
        simp only [splitOn, hc, if_false, hsp, List.mem_cons] at h
        rcases h with rfl | h
        · have := ih seg0 (by simp [hsp])
          simp [this, Ne.symm hc]
        · exact ih seg (by simp [hsp, h])

theorem pushSegment_name (a : Bool) (res : List (List Char)) (seg : List Char)
    (h : IsNameChars seg) : pushSegment a res seg = seg :: res := by
  obtain ⟨h1, h2, h3, -⟩ := h
  simp [pushSegment, h1, h2, h3]

theorem foldl_pushSegment_names (a : Bool) (l res : List (List Char))
    (h : ∀ s ∈ l, IsNameChars s) :
    l.foldl (pushSegment a) res = l.reverse ++ res := by
  induction l generalizing res with
  | nil => simp
  | cons x xs ih =>
    rw [List.foldl_cons, pushSegment_name a res x (h x (by simp)),
      ih _ (fun s hs => h s (List.mem_cons_of_mem _ hs))]
    simp

theorem intercalate_eq_nil (sep : List Char) (l : List (List Char))
    (h : List.intercalate sep l = []) : ∀ s ∈ l, s = [] := by
  induction l with
  | nil => simp
  | cons x xs ih =>
    cases xs with
    | nil =>
      rw [intercalate_single] at h
      simp [h]
    | cons y ys =>
      rw [intercalate_cons_cons] at h
      simp only [List.append_eq_nil, List.append_assoc] at h
      intro s hs
      rcases List.mem_cons.1 hs with rfl | hs
      · exact h.1
      · exact ih h.2.2 s hs

theorem normalizeSegments_parent_child (B : List (List Char)) (hB : ∀ s ∈ B, IsNameChars s)
    (d : List Char) (hd : IsNameChars d) (rel : List Char) (rest : List (List Char))
    (hsplit : splitOn '/' rel = ['.', '.'] :: rest) (hrest : ∀ s ∈ rest, IsNameChars s) :
    normalizeSegments ('/' :: (List.intercalate ['/'] (B ++ [d]) ++ '/' :: rel)) false =
      B ++ rest := by
  have hBd : ∀ s ∈ B ++ [d], IsNameChars s := by
    intro s hs
    rcases List.mem_append.1 hs with hs | hs
    · exact hB s hs
    · rw [List.mem_singleton.1 hs]; exact hd
  have hs1 : splitOn '/' ('/' :: (List.intercalate ['/'] (B ++ [d]) ++ '/' :: rel)) =
      ([] :: (B ++ [d])) ++ (['.', '.'] :: rest) := by
    have e0 : '/' :: (List.intercalate ['/'] (B ++ [d]) ++ '/' :: rel) =
        ('/' :: List.intercalate ['/'] (B ++ [d])) ++ '/' :: rel := rfl
    rw [e0, splitOn_append_sep, hsplit]
    have e : '/' :: List.intercalate ['/'] (B ++ [d]) =
        [] ++ '/' :: List.intercalate ['/'] (B ++ [d]) := rfl
    rw [e, splitOn_append_sep, splitOn_intercalate '/' (B ++ [d]) (by simp)
      (fun s hs => (hBd s hs).2.2.2)]
    rfl
  have h0 : pushSegment false [] [] = [] := by simp [pushSegment]
  have h1 : pushSegment false ((B ++ [d]).reverse ++ []) ['.', '.'] = B.reverse := by
    have hd2 : d ≠ ['.', '.'] := hd.2.2.1
    simp [pushSegment, hd2]
  have hin : List.foldl (pushSegment false) [] ([] :: (B ++ [d])) =
      (B ++ [d]).reverse ++ [] := by
    rw [List.foldl_cons, h0, foldl_pushSegment_names false _ _ hBd]
  unfold normalizeSegments
  rw [hs1, List.foldl_append, hin, List.foldl_cons, h1,
    foldl_pushSegment_names false _ _ hrest]
  simp

theorem getLast?_append_cons_ne_nil (a : List Char) (c : Char) (b : List Char) (hb : b ≠ []) :
    (a ++ c :: b).getLast? = b.getLast? := by
  have e : a ++ c :: b = (a ++ [c]) ++ b := by simp
  rw [e, List.getLast?_append_of_ne_nil _ hb]

/-- Joining a directory `/B₁/…/Bₙ/d` with a relative path `../rest` gives
`/B₁/…/Bₙ/rest`. -/
theorem joinChars_parent_child (B : List (List Char)) (hB : ∀ s ∈ B, IsNameChars s)
    (d : List Char) (hd : IsNameChars d) (rel : List Char) (rest : List (List Char))
    (hsplit : splitOn '/' rel = ['.', '.'] :: rest) (hrest : ∀ s ∈ rest, IsNameChars s)
    (hne : rest ≠ []) (hlast : rel.getLast? ≠ some '/') :
    joinChars ['/' :: List.intercalate ['/'] (B ++ [d]), rel] =
      '/' :: List.intercalate ['/'] (B ++ rest) := by
  have hrel : rel ≠ [] := by
    rintro rfl
    simp [splitOn] at hsplit
  have hres : List.intercalate ['/'] (B ++ rest) ≠ [] := by
    intro h0
    obtain ⟨r, hr⟩ := List.exists_mem_of_ne_nil rest hne
    exact (hrest r hr).1 (intercalate_eq_nil _ _ h0 r (List.mem_append_right _ hr))
  have hj : List.intercalate ['/'] ['/' :: List.intercalate ['/'] (B ++ [d]), rel] =
      '/' :: List.intercalate ['/'] (B ++ [d]) ++ '/' :: rel := by
    rw [intercalate_cons_cons, intercalate_single]; simp
  have hl : ('/' :: (List.intercalate ['/'] (B ++ [d]) ++ '/' :: rel)).getLast? ≠
      some '/' := by
    have e0 : '/' :: (List.intercalate ['/'] (B ++ [d]) ++ '/' :: rel) =
        ('/' :: List.intercalate ['/'] (B ++ [d])) ++ '/' :: rel := rfl
    rw [e0, getLast?_append_cons_ne_nil _ _ _ hrel]; exact hlast
  simp only [joinChars, List.filter, ne_eq, hrel, not_false_eq_true, decide_True,
    List.cons_ne_nil, hj]
  have hseg := normalizeSegments_parent_child B hB d hd rel rest hsplit hrest
  simp only [normalizeChars, normalizeString, List.cons_append]
  simp [hres, hl, hseg]

theorem pushSegment_inv (a : Bool) (res : List (List Char)) (seg : List Char)
    (hseg : '/' ∉ seg) (hres : ∀ s ∈ res, s ≠ [] ∧ '/' ∉ s) :
    ∀ s ∈ pushSegment a res seg, s ≠ [] ∧ '/' ∉ s := by
  unfold pushSegment
  split
  · exact hres
  · rename_i h1
    have hne : seg ≠ [] := fun e => h1 (Or.inl e)
    have hcons : ∀ s ∈ seg :: res, s ≠ [] ∧ '/' ∉ s := by
      intro s hs
      rcases List.mem_cons.1 hs with rfl | hs
      · exact ⟨hne, hseg⟩
      · exact hres s hs
    split
    · split
      · split
        · intro s hs
          exact hcons s (by rw [List.mem_singleton.1 hs]; simp)
        · simp
      · rename_i top rest
        split
        · split
          · exact hcons
          · exact hres
        · exact fun s hs => hres s (List.mem_cons_of_mem _ hs)
    · exact hcons

theorem foldl_pushSegment_inv (a : Bool) (l res : List (List Char))
    (hl : ∀ s ∈ l, '/' ∉ s) (hres : ∀ s ∈ res, s ≠ [] ∧ '/' ∉ s) :
    ∀ s ∈ l.foldl (pushSegment a) res, s ≠ [] ∧ '/' ∉ s := by
  induction l generalizing res with
  | nil => simpa using hres
  | cons x xs ih =>
    rw [List.foldl_cons]
    exact ih _ (fun s hs => hl s (List.mem_cons_of_mem _ hs))
      (pushSegment_inv a res x (hl x (by simp)) hres)

theorem head?_intercalate (sep : List Char) (l : List (List Char))
    (h : ∀ s ∈ l, s ≠ [] ∧ '/' ∉ s) : (List.intercalate sep l).head? ≠ some '/' := by
  cases l with
  | nil => simp [List.intercalate]
  | cons x xs =>
    obtain ⟨hx, hx2⟩ := h x (by simp)
    have e : ∃ t, List.intercalate sep (x :: xs) = x ++ t := by
      cases xs with
      | nil => exact ⟨[], by rw [intercalate_single]; simp⟩
      | cons y ys => exact ⟨_, by rw [intercalate_cons_cons, List.append_assoc]⟩
    obtain ⟨t, ht⟩ := e
    rw [ht]
    cases x with
    | nil => exact absurd rfl hx
    | cons c cs =>
      simp only [List.cons_append, List.head?_cons, ne_eq, Option.some.injEq]
      rintro rfl
      exact hx2 (by simp)

/-- The result of `normalizeString` never starts with a separator. -/
theorem head?_normalizeString (p : List Char) (a : Bool) :
    (normalizeString p a).head? ≠ some '/' := by
  unfold normalizeString normalizeSegments
  apply head?_intercalate
  intro s hs
  rw [List.mem_reverse] at hs
  exact foldl_pushSegment_inv a _ _ (fun t ht => not_mem_of_mem_splitOn '/' p t ht)
    (by simp) s hs

/-- Normalizing keeps a path absolute or relative. -/
theorem head?_normalizeChars (p : List Char) (hp : p ≠ []) :
    (normalizeChars p).head? = some '/' ↔ p.head? = some '/' := by
  have hn := head?_normalizeString p (!decide (p.head? = some '/'))
  unfold normalizeChars
  simp only [hp, if_false]
  by_cases habs : p.head? = some '/'
  · simp only [habs, if_true]
    split <;> simp
  · simp only [habs, if_false]
    split
    · split <;> simp
    · rename_i hres
      split
      · rw [List.head?_append_of_ne_nil _ hres]
        simpa [habs] using hn
      · simpa [habs] using hn

/-- Joining a directory with a relative path gives an absolute path exactly
when the directory is absolute. -/
theorem head?_joinChars (d rel : List Char) (hrel : rel ≠ [])
    (hrel2 : rel.head? ≠ some '/') :
    (joinChars [d, rel]).head? = some '/' ↔ d.head? = some '/' := by
  by_cases hd : d = []
  · subst hd
    simp only [joinChars, List.filter, ne_eq, not_true_eq_false, decide_False, hrel,
      not_false_eq_true, decide_True, intercalate_single]
    rw [head?_normalizeChars rel hrel]
    simp [hrel2]
  · simp only [joinChars, List.filter, ne_eq, hd, hrel, not_false_eq_true, decide_True]
    rw [head?_normalizeChars _ (by rw [intercalate_cons_cons]; simp [hd])]
    rw [intercalate_cons_cons]
    cases d with
    | nil => exact absurd rfl hd
    | cons c cs => simp

theorem intercalate_append (sep : List Char) (l m : List (List Char)) (hl : l ≠ [])
    (hm : m ≠ []) :
    List.intercalate sep (l ++ m) = List.intercalate sep l ++ sep ++ List.intercalate sep m := by
  induction l with
  | nil => exact absurd rfl hl
  | cons x xs ih =>
    cases xs with
    | nil =>
      cases m with
      | nil => exact absurd rfl hm
      | cons y ys =>
        rw [intercalate_single]
        exact intercalate_cons_cons sep x y ys
    | cons y ys =>
      have e : x :: y :: ys ++ m = x :: y :: (ys ++ m) := rfl
      rw [e, intercalate_cons_cons, intercalate_cons_cons]
      have ih2 := ih (by simp)
      rw [List.cons_append] at ih2
      rw [ih2]
      simp

theorem data_join_pair (a b : String) : (join [a, b]).data = joinChars [a.data, b.data] := rfl

/-- The path `path.join(dir + "/config", "../" + rest)` for a normalized
absolute directory `dir` is the path of `rest` under `dir`. -/
theorem join_config_parent (base : List String) (hbase : ∀ s ∈ base, IsName s)
    (rel : String) (rest : List String)
    (hsplit : splitOn '/' rel.data = ['.', '.'] :: rest.map String.data)
    (hrest : ∀ s ∈ rest, IsName s) (hne : rest ≠ [])
    (hlast : rel.data.getLast? ≠ some '/') :
    join [ofSegments (base ++ ["config"]), rel] = ofSegments (base ++ rest) := by
  apply String.ext
  rw [data_join_pair]
  simp only [ofSegments, List.map_append, List.map_cons, List.map_nil]
  apply joinChars_parent_child (base.map String.data) _ "config".data (by decide) rel.data
    (rest.map String.data) hsplit _ (by simpa using hne) hlast
  · intro s hs
    obtain ⟨t, ht, rfl⟩ := List.mem_map.1 hs
    exact hbase t ht
  · intro s hs
    obtain ⟨t, ht, rfl⟩ := List.mem_map.1 hs
    exact hrest t ht

theorem isAbsolute_ofSegments (segs : List String) : isAbsolute (ofSegments segs) = true := by
  simp [isAbsolute, ofSegments]

/-- A path under `base` starts with the path of `base`. -/
theorem ofSegments_append_data (base rest : List String) :
    (ofSegments base).data <+: (ofSegments (base ++ rest)).data := by
  by_cases hb : base = []
  · subst hb
    exact ⟨List.intercalate ['/'] (rest.map String.data), by simp [ofSegments, List.intercalate]⟩
  by_cases hr : rest = []
  · subst hr
    simp
  · refine ⟨'/' :: List.intercalate ['/'] (rest.map String.data), ?_⟩
    simp only [ofSegments, List.map_append]
    rw [intercalate_append _ _ _ (by simpa using hb) (by simpa using hr)]
    simp

/-- Below a directory other than the root, the path of `rest` is the
directory, a separator and `rest` joined by separators. -/
theorem ofSegments_append_eq (base rest : List String) (hb : base ≠ []) (hr : rest ≠ []) :
    ofSegments (base ++ rest) =
      ofSegments base ++ "/" ++ ⟨List.intercalate ['/'] (rest.map String.data)⟩ := by
  apply String.ext
  simp only [ofSegments, List.map_append, String.data_append]
  rw [intercalate_append _ _ _ (by simpa using hb) (by simpa using hr)]
  simp

theorem isAbsolute_join (dir rel : String) (hrel : rel.data ≠ [])
    (hrel2 : rel.data.head? ≠ some '/') :
    isAbsolute (join [dir, rel]) = isAbsolute dir := by
  have h := head?_joinChars dir.data rel.data hrel hrel2
  rw [← data_join_pair] at h
  simp only [isAbsolute]
  by_cases hd : dir.data.head? = some '/'
  · simp [hd, h.2 hd]
  · have hj : ¬ (join [dir, rel]).data.head? = some '/' := fun e => hd (h.1 e)
    simp [hd, hj]

end path

/-! ## Evaluation of the file -/

theorem moduleExports_installed (h : Host) (dir : String) (hi : h.Installed) :
    ∃ fileLoader, h.resolve "file-loader" = some fileLoader ∧
      moduleExports h dir = Except.ok (descriptor dir fileLoader) := by
  obtain ⟨h1, h2, h3⟩ := hi
  obtain ⟨w, hw⟩ := Option.isSome_iff_exists.1 h1
  obtain ⟨p, hp⟩ := Option.isSome_iff_exists.1 h2
  obtain ⟨f, hf⟩ := Option.isSome_iff_exists.1 h3
  refine ⟨f, hf, ?_⟩
  simp [moduleExports, requireResolve, hw, hp, hf, bind, Except.bind, pure, Except.pure]

/-- A returned descriptor is the object literal for the resolved
`file-loader`. -/
theorem moduleExports_ok (h : Host) (dir : String) (cfg : Config)
    (hok : moduleExports h dir = Except.ok cfg) :
    ∃ fileLoader, h.resolve "file-loader" = some fileLoader ∧
      cfg = descriptor dir fileLoader := by
  cases hw : h.resolve "webpack" with
  | none => simp [moduleExports, requireResolve, hw, bind, Except.bind] at hok
  | some w =>
    cases hp : h.resolve "html-webpack-plugin" with
    | none => simp [moduleExports, requireResolve, hw, hp, bind, Except.bind] at hok
    | some p =>
      cases hf : h.resolve "file-loader" with
      | none => simp [moduleExports, requireResolve, hw, hp, hf, bind, Except.bind] at hok
      | some f =>
        refine ⟨f, rfl, ?_⟩
        simp [moduleExports, requireResolve, hw, hp, hf, bind, Except.bind, pure,
          Except.pure] at hok
        exact hok.symm

theorem computedPaths_descriptor (dir fileLoader : String) :
    computedPaths (descriptor dir fileLoader) =
      [ path.join [dir, "../templates/js/script.dev.js"],
        path.join [dir, "../app/script.js"],
        path.join [dir, "../templates/html/index.dev.html"] ] := by
  simp [computedPaths, descriptor, htmlTemplates]

/-! ## The rule list -/

/-- C10: no rule of `module.rules` accepts a path exactly when the path ends
in `.html`, or ends in `.json`, or ends in `.js` and contains `node_modules`;
every other path is accepted by at least one rule.  Endings and substrings
are compared character by character, so the comparison is case-sensitive:
`INDEX.HTML` is accepted by a rule. -/
theorem no_rule_accepts_iff (fileLoader p : String) :
    ((∀ r ∈ rules fileLoader, r.accepts p = false) ↔
      (EndsWith ".html" p ∨ EndsWith ".json" p ∨
        (EndsWith ".js" p ∧ Contains "node_modules" p))) ∧
    ((∃ r ∈ rules fileLoader, r.accepts p = true) ↔
      ¬ (EndsWith ".html" p ∨ EndsWith ".json" p ∨
        (EndsWith ".js" p ∧ Contains "node_modules" p))) ∧
    (∃ r ∈ rules fileLoader, r.accepts "INDEX.HTML" = true) :=
  ⟨all_rules_reject_iff fileLoader p, some_rule_accepts_iff fileLoader p,
    (some_rule_accepts_iff fileLoader "INDEX.HTML").2 (by decide)⟩

/-- C1, as stated, fails: `index.html` is accepted by none of the five rules,
so it is not accepted by exactly one. -/
theorem index_html_accepted_by_no_rule :
    acceptCount "/repo/node_modules/file-loader/dist/cjs.js" "index.html" = 0 ∧
      ¬ (∀ fileLoader name : String, acceptCount fileLoader name = 1) := by
  refine ⟨by decide, fun h => ?_⟩
  have h1 := h "/repo/node_modules/file-loader/dist/cjs.js" "index.html"
  revert h1
  decide

/-- C1, amended: for every file name, at most one of the four specific rules
(`.js`, `.css`, `.elm`, images) accepts it; a name accepted by the `.js` or the
`.css` rule is rejected by the catch-all rule; and at least one of the five
rules accepts the name unless it ends in `.html` or `.json`, or ends in `.js`
and contains `node_modules`. -/
theorem specific_rules_exclusive_and_rules_cover (fileLoader name : String) :
    ([jsRule, cssRule, elmRule, imageRule].filter fun r => r.accepts name).length ≤ 1 ∧
    (jsRule.accepts name = true ∨ cssRule.accepts name = true →
      (catchAllRule fileLoader).accepts name = false) ∧
    (¬ EndsWith ".html" name → ¬ EndsWith ".json" name →
      ¬ (EndsWith ".js" name ∧ Contains "node_modules" name) →
      1 ≤ acceptCount fileLoader name) := by
  refine ⟨?_, ?_, ?_⟩
  · by_cases hjs : jsRule.accepts name = true
    · obtain ⟨b, c, d⟩ := other_rules_reject_js name ((jsRule_accepts name).1 hjs).1
      simp [List.filter, hjs, b, c, d]
    by_cases hcss : cssRule.accepts name = true
    · obtain ⟨a, c, d⟩ := other_rules_reject_css name ((cssRule_accepts name).1 hcss)
      simp [List.filter, a, hcss, c, d]
    by_cases helm : elmRule.accepts name = true
    · have d := imageRule_rejects_elm name ((elmRule_accepts name).1 helm).1
      simp [List.filter, hjs, hcss, helm, d]
    · by_cases himg : imageRule.accepts name = true <;>
        simp [List.filter, hjs, hcss, helm, himg]
  · rintro (h | h)
    · exact catchAllRule_rejects _ _ (Or.inr (Or.inl ((jsRule_accepts name).1 h).1))
    · exact catchAllRule_rejects _ _ (Or.inl ((cssRule_accepts name).1 h))
  · intro h1 h2 h3
    exact (acceptCount_pos_iff fileLoader name).2
      ((some_rule_accepts_iff fileLoader name).2 (by tauto))

/-- The amended C1 at `app/script.js`: only the `.js` rule accepts it. -/
theorem specific_rules_exclusive_and_rules_cover_witness :
    jsRule.accepts "app/script.js" = true ∧
    (catchAllRule "/repo/node_modules/file-loader/dist/cjs.js").accepts "app/script.js" = false ∧
    1 ≤ acceptCount "/repo/node_modules/file-loader/dist/cjs.js" "app/script.js" :=
  ⟨by decide,
    (specific_rules_exclusive_and_rules_cover
      "/repo/node_modules/file-loader/dist/cjs.js" "app/script.js").2.1 (Or.inl (by decide)),
    (specific_rules_exclusive_and_rules_cover
      "/repo/node_modules/file-loader/dist/cjs.js" "app/script.js").2.2
        (by decide) (by decide) (by decide)⟩

/-- C2 at `logo.png` and `src/Main.elm`: each is accepted by a specific rule
(the image rule, the `.elm` rule) and by the catch-all rule as well, whose
`exclude` list names `.css`, `.js`, `.html` and `.json` only. -/
theorem catch_all_double_handles_image_and_elm (fileLoader : String) :
    imageRule.accepts "logo.png" = true ∧
    (catchAllRule fileLoader).accepts "logo.png" = true ∧
    acceptCount fileLoader "logo.png" = 2 ∧
    elmRule.accepts "src/Main.elm" = true ∧
    (catchAllRule fileLoader).accepts "src/Main.elm" = true ∧
    acceptCount fileLoader "src/Main.elm" = 2 := by
  refine ⟨by decide, ?_, ?_, by decide, ?_, ?_⟩
  · rw [catchAllRule_accepts]; decide
  · simp only [acceptCount, rules, List.filter]
    have h : (catchAllRule fileLoader).accepts "logo.png" = true := by
      rw [catchAllRule_accepts]; decide
    have h0 : jsRule.accepts "logo.png" = false := by decide
    have h1 : cssRule.accepts "logo.png" = false := by decide
    have h2 : elmRule.accepts "logo.png" = false := by decide
    have h3 : imageRule.accepts "logo.png" = true := by decide
    simp [h, h0, h1, h2, h3]
  · rw [catchAllRule_accepts]; decide
  · simp only [acceptCount, rules, List.filter]
    have h : (catchAllRule fileLoader).accepts "src/Main.elm" = true := by
      rw [catchAllRule_accepts]; decide
    have h0 : jsRule.accepts "src/Main.elm" = false := by decide
    have h1 : cssRule.accepts "src/Main.elm" = false := by decide
    have h2 : elmRule.accepts "src/Main.elm" = true := by decide
    have h3 : imageRule.accepts "src/Main.elm" = false := by decide
    simp [h, h0, h1, h2, h3]

/-- C3: a file name ending in `.css` is accepted by the CSS rule, a member of
`module.rules` whose loaders are, in declaration order, `style-loader` and
then `css-loader` with `sourceMap: true`, so that `css-loader` runs first and
`style-loader` after it; and the catch-all rule rejects the name. -/
theorem css_file_handling (fileLoader name : String) (h : EndsWith ".css" name) :
    cssRule ∈ rules fileLoader ∧
    cssRule.accepts name = true ∧
    cssRule.handlerChain =
      [ { loader := "style-loader", options := [] },
        { loader := "css-loader", options := [("sourceMap", JsValue.bool true)] } ] ∧
    cssRule.applicationOrder =
      [ { loader := "css-loader", options := [("sourceMap", JsValue.bool true)] },
        { loader := "style-loader", options := [] } ] ∧
    (catchAllRule fileLoader).accepts name = false :=
  ⟨by simp [rules], (cssRule_accepts name).2 h, rfl, rfl,
    catchAllRule_rejects _ _ (Or.inl h)⟩

/-- C3 at `style.css`. -/
theorem css_file_handling_witness :
    EndsWith ".css" "style.css" ∧ cssRule.accepts "style.css" = true ∧
    (catchAllRule "/repo/node_modules/file-loader/dist/cjs.js").accepts "style.css" = false :=
  ⟨by decide,
    (css_file_handling "/repo/node_modules/file-loader/dist/cjs.js" "style.css"
      (by decide)).2.1,
    (css_file_handling "/repo/node_modules/file-loader/dist/cjs.js" "style.css"
      (by decide)).2.2.2.2⟩

/-- C4: a file name ending in `.jpg`, `.jpeg`, `.png` or `.gif` is accepted by
the image rule, a member of `module.rules` whose only loader is `file-loader`
with the single option `name: "[path][name].[ext]"`, the template made of the
placeholders for the path, the base name and, after a dot, the extension. -/
theorem image_file_handling (fileLoader name : String)
    (h : EndsWith ".jpg" name ∨ EndsWith ".jpeg" name ∨ EndsWith ".png" name ∨
      EndsWith ".gif" name) :
    imageRule ∈ rules fileLoader ∧
    imageRule.accepts name = true ∧
    imageRule.handlerChain =
      [ { loader := "file-loader",
          options := [("name", JsValue.str "[path][name].[ext]")] } ] ∧
    "[path][name].[ext]" = "[path]" ++ "[name]" ++ "." ++ "[ext]" :=
  ⟨by simp [rules], (imageRule_accepts name).2 h, rfl, by decide⟩

/-- C4 at `logo.png`. -/
theorem image_file_handling_witness :
    EndsWith ".png" "logo.png" ∧ imageRule.accepts "logo.png" = true :=
  ⟨by decide,
    (image_file_handling "/repo/node_modules/file-loader/dist/cjs.js" "logo.png"
      (Or.inr (Or.inr (Or.inl (by decide))))).2.1⟩

/-! ## The descriptor -/

/-- C5: for every normalized absolute base directory, given by its
components `base` (none for the root), and the file evaluated from the
`config` directory below it on an installation where its modules resolve,
`entry` is the list of exactly two paths, `templates/js/script.dev.js` below
the base directory first and `app/script.js` below the base directory second;
both are absolute and start with the base directory, and for a base directory
`B` other than the root they are `B/templates/js/script.dev.js` and
`B/app/script.js`. -/
theorem entry_rooted_at_base (h : Host) (base : List String)
    (hbase : ∀ s ∈ base, path.IsName s) (hi : h.Installed) :
    ∃ cfg, moduleExports h (path.ofSegments (base ++ ["config"])) = Except.ok cfg ∧
      cfg.entry =
        [ path.ofSegments (base ++ ["templates", "js", "script.dev.js"]),
          path.ofSegments (base ++ ["app", "script.js"]) ] ∧
      (∀ p ∈ cfg.entry,
        path.isAbsolute p = true ∧ (path.ofSegments base).data <+: p.data) ∧
      (base ≠ [] →
        cfg.entry =
          [ path.ofSegments base ++ "/templates/js/script.dev.js",
            path.ofSegments base ++ "/app/script.js" ]) := by
  obtain ⟨fl, -, hfl⟩ := moduleExports_installed h (path.ofSegments (base ++ ["config"])) hi
  have e1 : path.join [path.ofSegments (base ++ ["config"]), "../templates/js/script.dev.js"] =
      path.ofSegments (base ++ ["templates", "js", "script.dev.js"]) :=
    path.join_config_parent base hbase _ _ (by decide) (by decide) (by simp) (by decide)
  have e2 : path.join [path.ofSegments (base ++ ["config"]), "../app/script.js"] =
      path.ofSegments (base ++ ["app", "script.js"]) :=
    path.join_config_parent base hbase _ _ (by decide) (by decide) (by simp) (by decide)
  refine ⟨_, hfl, ?_, ?_, ?_⟩
  · simp only [descriptor, e1, e2]
  · simp only [descriptor, e1, e2, List.mem_cons, List.mem_singleton, List.not_mem_nil,
      or_false]
    rintro p (rfl | rfl)
    · exact ⟨path.isAbsolute_ofSegments _, path.ofSegments_append_data _ _⟩
    · exact ⟨path.isAbsolute_ofSegments _, path.ofSegments_append_data _ _⟩
  · intro hb
    simp only [descriptor, e1, e2]
    rw [path.ofSegments_append_eq base _ hb (by simp),
      path.ofSegments_append_eq base _ hb (by simp), String.append_assoc, String.append_assoc]
    rfl

/-- C5 at the base directory `/repo`. -/
theorem entry_rooted_at_base_witness :
    ∃ cfg, moduleExports sampleHost "/repo/config" = Except.ok cfg ∧
      cfg.entry = ["/repo/templates/js/script.dev.js", "/repo/app/script.js"] := by
  obtain ⟨cfg, h1, -, -, h2⟩ :=
    entry_rooted_at_base sampleHost ["repo"] (by decide) (by decide)
  exact ⟨cfg, h1, h2 (by simp)⟩

/-- C6: on an installation where its modules resolve, the descriptor has
mode `development` and the constants injected through `DefinePlugin` are
`development`, mapped to `true`, and nothing else. -/
theorem defines_development_only (h : Host) (dir : String) (hi : h.Installed) :
    ∃ cfg, moduleExports h dir = Except.ok cfg ∧
      cfg.mode = "development" ∧
      globalDefines cfg.plugins = [("development", JsValue.bool true)] ∧
      ∀ k v, (k, v) ∈ globalDefines cfg.plugins ↔ (k = "development" ∧ v = JsValue.bool true) := by
  obtain ⟨fl, -, hfl⟩ := moduleExports_installed h dir hi
  refine ⟨_, hfl, rfl, rfl, ?_⟩
  intro k v
  simp [descriptor, globalDefines]

/-- C6 on the sample installation. -/
theorem defines_development_only_witness :
    ∃ cfg, moduleExports sampleHost "/repo/config" = Except.ok cfg ∧
      globalDefines cfg.plugins = [("development", JsValue.bool true)] := by
  obtain ⟨cfg, h1, -, h2, -⟩ :=
    defines_development_only sampleHost "/repo/config" (by decide)
  exact ⟨cfg, h1, h2⟩

/-- C7: whatever the directory of the file, on an installation where its
modules resolve the output record of the descriptor has `filename`
`[name].js`, `publicPath` `/` and `pathinfo` enabled. -/
theorem output_fixed (h : Host) (dir : String) (hi : h.Installed) :
    ∃ cfg, moduleExports h dir = Except.ok cfg ∧
      cfg.output.filename = "[name].js" ∧ cfg.output.publicPath = "/" ∧
      cfg.output.pathinfo = true := by
  obtain ⟨fl, -, hfl⟩ := moduleExports_installed h dir hi
  exact ⟨_, hfl, rfl, rfl, rfl⟩

/-- C7 with the file in `/repo/config`. -/
theorem output_fixed_witness :
    ∃ cfg, moduleExports sampleHost "/repo/config" = Except.ok cfg ∧
      cfg.output.filename = "[name].js" ∧ cfg.output.publicPath = "/" := by
  obtain ⟨cfg, h1, h2, h3, -⟩ := output_fixed sampleHost "/repo/config" (by decide)
  exact ⟨cfg, h1, h2, h3⟩

/-- C8, as stated, fails: two installations with the same clock and the same
random state, evaluated from the same directory `/repo/config`, both return
a descriptor, and the two descriptors differ in the `loader` of the last
rule, the value of `require.resolve("file-loader")`. -/
theorem installation_changes_descriptor :
    sampleHost.clock = olderLoaderHost.clock ∧
    sampleHost.randomSeed = olderLoaderHost.randomSeed ∧
    lastLoader (moduleExports sampleHost "/repo/config") =
      some "/repo/node_modules/file-loader/dist/cjs.js" ∧
    lastLoader (moduleExports olderLoaderHost "/repo/config") =
      some "/repo/node_modules/file-loader/index.js" ∧
    moduleExports sampleHost "/repo/config" ≠ moduleExports olderLoaderHost "/repo/config" := by
  have h1 : lastLoader (moduleExports sampleHost "/repo/config") =
      some "/repo/node_modules/file-loader/dist/cjs.js" := by decide
  have h2 : lastLoader (moduleExports olderLoaderHost "/repo/config") =
      some "/repo/node_modules/file-loader/index.js" := by decide
  refine ⟨rfl, rfl, h1, h2, fun heq => ?_⟩
  rw [heq, h2] at h1
  revert h1
  decide

/-- C8, amended: the descriptor is determined by the directory of the file
and by the path to which `file-loader` resolves, and by nothing else (not by
the clock, the random state or the location of the other modules).  Two
evaluations from the same directory on installations where the modules
resolve both return a descriptor; each is the object literal for that
directory and the resolved `file-loader`; the two agree on devtool, mode,
entry, output, plugins with their options, devServer and the first four
rules; and they are equal in every field when `file-loader` resolves to the
same path. -/
theorem descriptor_determined_by_directory_and_loader (h₁ h₂ : Host) (dir : String)
    (hi₁ : h₁.Installed) (hi₂ : h₂.Installed) :
    ∃ c₁ c₂ f₁ f₂,
      moduleExports h₁ dir = Except.ok c₁ ∧ moduleExports h₂ dir = Except.ok c₂ ∧
      h₁.resolve "file-loader" = some f₁ ∧ h₂.resolve "file-loader" = some f₂ ∧
      c₁ = descriptor dir f₁ ∧ c₂ = descriptor dir f₂ ∧
      c₁.devtool = c₂.devtool ∧ c₁.mode = c₂.mode ∧ c₁.entry = c₂.entry ∧
      c₁.output = c₂.output ∧ c₁.plugins = c₂.plugins ∧ c₁.devServer = c₂.devServer ∧
      c₁.module.rules.take 4 = c₂.module.rules.take 4 ∧
      (f₁ = f₂ → c₁ = c₂) := by
  obtain ⟨f₁, hf₁, e₁⟩ := moduleExports_installed h₁ dir hi₁
  obtain ⟨f₂, hf₂, e₂⟩ := moduleExports_installed h₂ dir hi₂
  refine ⟨_, _, f₁, f₂, e₁, e₂, hf₁, hf₂, rfl, rfl, rfl, rfl, rfl, rfl, rfl, rfl, rfl, ?_⟩
  rintro rfl
  rfl

/-- The amended C8 for the sample installation at two different times: the
clock and the random state differ, the outcome is the same. -/
theorem descriptor_determined_by_directory_and_loader_witness :
    sampleHost.clock ≠ laterHost.clock ∧ sampleHost.randomSeed ≠ laterHost.randomSeed ∧
      moduleExports sampleHost "/repo/config" = moduleExports laterHost "/repo/config" := by
  obtain ⟨c₁, c₂, f₁, f₂, e₁, e₂, hf₁, hf₂, -, -, -, -, -, -, -, -, -, hsame⟩ :=
    descriptor_determined_by_directory_and_loader sampleHost laterHost "/repo/config"
      (by decide) (by decide)
  have hf : f₁ = f₂ := Option.some.inj (hf₁.symm.trans hf₂)
  exact ⟨by decide, by decide, by rw [e₁, e₂, hsame hf]⟩

/-- C9: with the file located in an absolute directory, as the runtime always
supplies it, evaluation never returns a descriptor with a path that is not
absolute: every returned descriptor has absolute entry paths and an absolute
HTML template path.  Hence, if an entry path or the template path computed
from the directory were not absolute, evaluation would fail instead of
returning a descriptor. -/
theorem returned_paths_absolute (h : Host) (dir : String)
    (habs : path.isAbsolute dir = true) :
    (∀ cfg, moduleExports h dir = Except.ok cfg →
      ∀ p ∈ computedPaths cfg, path.isAbsolute p = true) ∧
    (∀ fileLoader,
      (∃ p ∈ computedPaths (descriptor dir fileLoader), path.isAbsolute p = false) →
      ∃ e, moduleExports h dir = Except.error e) := by
  have hall : ∀ fileLoader, ∀ p ∈ computedPaths (descriptor dir fileLoader),
      path.isAbsolute p = true := by
    intro fileLoader
    rw [computedPaths_descriptor]
    simp only [List.mem_cons, List.mem_singleton, List.not_mem_nil, or_false]
    rintro p (rfl | rfl | rfl)
    · rw [path.isAbsolute_join dir _ (by decide) (by decide)]; exact habs
    · rw [path.isAbsolute_join dir _ (by decide) (by decide)]; exact habs
    · rw [path.isAbsolute_join dir _ (by decide) (by decide)]; exact habs
  constructor
  · intro cfg hok
    obtain ⟨f, -, rfl⟩ := moduleExports_ok h dir cfg hok
    exact hall f
  · rintro fileLoader ⟨p, hp, hrel⟩
    rw [hall fileLoader p hp] at hrel
    exact absurd hrel (by decide)

/-- C9 with the file in `/repo/config` on the sample installation: a
descriptor is returned and its three computed paths are absolute. -/
theorem returned_paths_absolute_witness :
    path.isAbsolute "/repo/config" = true ∧
    moduleExports sampleHost "/repo/config" =
      Except.ok (descriptor "/repo/config" "/repo/node_modules/file-loader/dist/cjs.js") ∧
    (computedPaths
      (descriptor "/repo/config" "/repo/node_modules/file-loader/dist/cjs.js")).all
        path.isAbsolute = true :=
  ⟨by decide, rfl,
    List.all_eq_true.2
      ((returned_paths_absolute sampleHost "/repo/config" (by decide)).1 _ rfl)⟩

end WebpackDev
